import Mathlib

/-!
Shallow embedding of the numeric core of `lib/acstools/PixCteCorr.py`
(pixel-based CTE correction for ACS/WFC images).

Conventions of the embedding:

* 2-D image arrays are modelled as total functions `ℕ → ℕ → ℝ` (row, column)
  together with explicit shape parameters where the code reads `shape`;
  the shape of a returned array is therefore identical to the input's by
  construction, and all claims quantify over in-range indices.
* Floating-point arithmetic is modelled exactly over `ℝ` (or `ℚ` where the
  code only adds, subtracts, multiplies and divides); `numpy.log10` becomes
  `Real.logb 10` and `numpy.sqrt` becomes `Real.sqrt`.
* `astype('int')` truncation toward zero is `truncInt` below; all truncated
  quantities in this code are shown nonnegative where it matters, so
  truncation agrees with `Int.floor` there.
* Python scalar division, which raises `ZeroDivisionError` on a zero
  denominator, is modelled by `pyDiv` returning `Option`.
* Amplifier identifiers (`'A'..'D'` in the code) are modelled as `ℕ`,
  detectors likewise (`0` stands for `'WFC'`).
-/

set_option maxHeartbeats 1000000

namespace PixCteCorr

/-- `numpy.clip(x, lo, hi)`: lower bound applied first, then the upper bound. -/
noncomputable def npClip (x lo hi : ℝ) : ℝ := min (max x lo) hi

/-- `numpy.sign`. -/
noncomputable def npSign (x : ℝ) : ℝ := if 0 < x then 1 else if x < 0 then -1 else 0

/-- Python float division: raises (here: `none`) on a zero denominator. -/
def pyDiv (a b : ℚ) : Option ℚ := if b = 0 then none else some (a / b)

/-- `astype('int')` / `int(...)`: truncation toward zero. -/
noncomputable def truncInt (x : ℝ) : ℤ := if x < 0 then ⌈x⌉ else ⌊x⌋

/-! ### `_CalcCteFrac` (time-scale model)

`CTE_FRAC = (mjd - C1) / (C2 - C1)` with per-detector constant epochs
`C1 = {'WFC': 52335.0}` and `C2 = {'WFC': 55105.0}`; an unknown detector key
raises (here: `none`). -/

/-- The linear time-dependence formula `(mjd - c1) / (c2 - c1)` as the code
computes it, with Python's failing division. -/
def cteFracFormula (mjd c1 c2 : ℚ) : Option ℚ := pyDiv (mjd - c1) (c2 - c1)

/-- `_CalcCteFrac(mjd, detector)`; detector `0` is `'WFC'`. -/
def CalcCteFrac (mjd : ℚ) (detector : ℕ) : Option ℚ :=
  if detector = 0 then cteFracFormula mjd 52335 55105 else none

/-! ### `_InterpolatePsi`

Expands the sparse PSI (release-profile) calibration table `chg_leak`
(`cl : node → column → ℚ`) at nodes `psi_node` (`pn : node index → ℕ`, the
downstream pixel offsets) into a dense 100-row table, row `r` holding
offset `r + 1`.  The code initialises the table to zeros, writes each
segment `[psi1, psi2)` by linear interpolation, and finally copies the last
calibration node's values into row 99 (offset 100). -/

/-- One loop iteration of `_InterpolatePsi`: write the linearly interpolated
values for offsets `o` with `pn n1 ≤ o < pn (n1+1)` (row `r` is offset
`r + 1`) on top of the table built so far. -/
def psiSeg (cl : ℕ → ℕ → ℚ) (pn : ℕ → ℕ) (n1 : ℕ) (kt : ℕ → ℕ → ℚ) : ℕ → ℕ → ℚ :=
  fun r k =>
    if pn n1 ≤ r + 1 ∧ r + 1 < pn (n1 + 1) then
      cl n1 k +
        (((r : ℚ) + 1) - (pn n1 : ℚ)) / ((pn (n1 + 1) : ℚ) - (pn n1 : ℚ)) *
          (cl (n1 + 1) k - cl n1 k)
    else kt r k

/-- The zero-initialised table after the first `nSeg` segment writes. -/
def psiFold (cl : ℕ → ℕ → ℚ) (pn : ℕ → ℕ) (nSeg : ℕ) : ℕ → ℕ → ℚ :=
  (List.range nSeg).foldl (fun kt n1 => psiSeg cl pn n1 kt) (fun _ _ => 0)

/-- `_InterpolatePsi(chg_leak, psi_node)` with `nNodes` calibration nodes:
all `nNodes - 1` segments, then the final `chg_leak_kt[-1,:] = chg_leak[-1,:]`
overwrite of row 99. -/
def InterpolatePsi (cl : ℕ → ℕ → ℚ) (pn : ℕ → ℕ) (nNodes : ℕ) : ℕ → ℕ → ℚ :=
  fun r k => if r = 99 then cl (nNodes - 1) k else psiFold cl pn (nNodes - 1) r k

/-! ### `_InterpolatePhi`

Expands sparse PHI (trap-fill) calibration values `dtde_l` over the dense
charge domain `p = 0 .. 49998` on the log coordinate
`rl = 1 + 2*log10(p+1)`, scales by `cte_frac`, accumulates the running sum,
and derives the charge→trap-count map and `_YCTE_QMAX` (threaded here as an
explicit value rather than the module-global of the code). -/

def pMaxPhi : ℕ := 49999

/-- `rl = 1.0 + 2.0*numpy.log10(p1_range)` where `p1_range = p + 1`. -/
noncomputable def phiRl (p : ℕ) : ℝ := 1 + 2 * Real.logb 10 ((p : ℝ) + 1)

/-- `ll = rl.astype('int')` (truncation; `rl ≥ 1` so this is the floor). -/
noncomputable def phiLl (p : ℕ) : ℤ := ⌊phiRl p⌋

/-- `fl = rl - ll`. -/
noncomputable def phiFl (p : ℕ) : ℝ := phiRl p - (phiLl p : ℝ)

/-- `dtde_q = (dtde_l[kl] + fl*(dtde_l[ll]-dtde_l[kl])) * cte_frac` with
`kl = ll - 1`. -/
noncomputable def dtde_q (dl : ℕ → ℝ) (cf : ℝ) (p : ℕ) : ℝ :=
  (dl ((phiLl p).toNat - 1) + phiFl p * (dl (phiLl p).toNat - dl ((phiLl p).toNat - 1))) * cf

/-- The running sum `ctde_q[p] = dtde_q[0] + ... + dtde_q[p]`. -/
noncomputable def ctde_q (dl : ℕ → ℝ) (cf : ℝ) (p : ℕ) : ℝ :=
  ∑ i ∈ Finset.range (p + 1), dtde_q dl cf i

/-- `q_pix_array = ctde_q.astype('int').clip(1)`. -/
noncomputable def q_pix_array (dl : ℕ → ℝ) (cf : ℝ) (p : ℕ) : ℤ :=
  max (truncInt (ctde_q dl cf p)) 1

/-- `_YCTE_QMAX = int(dtde_q.sum())`. -/
noncomputable def yCteQmax (dl : ℕ → ℝ) (cf : ℝ) : ℤ :=
  truncInt (∑ i ∈ Finset.range pMaxPhi, dtde_q dl cf i)

/-! ### `_TrackChargeTrap`

Combines the interpolated PSI table `kt = chg_leak_kt` (rows `t` = pixel
offsets, `maxNode = kt.shape[0]`) with the inverse charge map
`pixq = pix_q_array` into the per-trap leak table and its cumulative (open)
form.  Each column `q` is interpolated between two PSI columns chosen by the
clipped log-charge `lp`, then divided by its own sum, then cumulated. -/

/-- `lp = log10(pix_q_array[:QMAX]).clip(1.0, 4.0)`. -/
noncomputable def trackLp (pixq : ℕ → ℝ) (q : ℕ) : ℝ := npClip (Real.logb 10 (pixq q)) 1 4

/-- The PSI column selector: `k = 1`, overwritten to `0` where `lp < 2` and
to `2` where `lp ≥ 3`. -/
noncomputable def trackK (pixq : ℕ → ℝ) (q : ℕ) : ℕ :=
  if trackLp pixq q < 2 then 0 else if 3 ≤ trackLp pixq q then 2 else 1

/-- `flp = lp - k2` with `k2 = k + 1`. -/
noncomputable def trackFlp (pixq : ℕ → ℝ) (q : ℕ) : ℝ :=
  trackLp pixq q - ((trackK pixq q : ℝ) + 1)

/-- The pre-normalization column entry
`chg_leak_kt[t,k] + flp*(chg_leak_kt[t,k2]-chg_leak_kt[t,k])`. -/
noncomputable def trackRaw (kt : ℕ → ℕ → ℝ) (pixq : ℕ → ℝ) (t q : ℕ) : ℝ :=
  kt t (trackK pixq q) + trackFlp pixq q * (kt t (trackK pixq q + 1) - kt t (trackK pixq q))

/-- `chg_leak_tq[:,q].sum()` before normalization. -/
noncomputable def trackColSum (kt : ℕ → ℕ → ℝ) (pixq : ℕ → ℝ) (maxNode q : ℕ) : ℝ :=
  ∑ t ∈ Finset.range maxNode, trackRaw kt pixq t q

/-- The normalized leak table `chg_leak_tq` (the code divides each column by
its sum, unconditionally). -/
noncomputable def chg_leak_tq (kt : ℕ → ℕ → ℝ) (pixq : ℕ → ℝ) (maxNode t q : ℕ) : ℝ :=
  trackRaw kt pixq t q / trackColSum kt pixq maxNode q

/-- The cumulative (open) table `chg_open_tq[t,q] = sum over s ≤ t`. -/
noncomputable def chg_open_tq (kt : ℕ → ℕ → ℝ) (pixq : ℕ → ℝ) (maxNode t q : ℕ) : ℝ :=
  ∑ s ∈ Finset.range (t + 1), chg_leak_tq kt pixq maxNode s q

/-! ### `_DecomposeRN`

Separates SCI data (in electrons) into signal and noise.  `model = 0` is the
identity split; `model = 1` is the vertical-iterative scheme; `model = 100`
is the read-noise-threshold scheme.  Row index `i` runs over image rows,
`m` is the number of rows (`data_e.shape[0]`). -/

/-- A pixel whose value lies outside the acceptance band
`[nseLo, nseHi] = [-20, 100]`. -/
def rnOob (data : ℕ → ℕ → ℝ) (i j : ℕ) : Prop := data i j < -20 ∨ 100 < data i j

/-- An interior (non-edge) row. -/
def interiorRow (m i : ℕ) : Prop := 1 ≤ i ∧ i + 1 < m

/-- The noise-correction flag `doNsCor` for `model = 1`: on for interior
pixels that are in band and whose vertical neighbours (where interior) are
in band. -/
def doNsCor (m : ℕ) (data : ℕ → ℕ → ℝ) (i j : ℕ) : Prop :=
  interiorRow m i ∧ ¬ rnOob data i j ∧
    ¬ (interiorRow m (i - 1) ∧ rnOob data (i - 1) j) ∧
    ¬ (interiorRow m (i + 1) ∧ rnOob data (i + 1) j)

noncomputable instance rnOobDec (data : ℕ → ℕ → ℝ) (i j : ℕ) : Decidable (rnOob data i j) := by
  unfold rnOob; exact inferInstance

instance interiorRowDec (m i : ℕ) : Decidable (interiorRow m i) := by
  unfold interiorRow; exact inferInstance

noncomputable instance doNsCorDec (m : ℕ) (data : ℕ → ℕ → ℝ) (i j : ℕ) :
    Decidable (doNsCor m data i j) := by
  unfold doNsCor; exact inferInstance

/-- One iteration of the `model = 1` loop: for each flagged pixel, subtract
the residual against the mean of the two vertical neighbours, clipped to
`[-1, 1]` electrons; flags are computed once from the original data. -/
noncomputable def rnStep (m : ℕ) (data : ℕ → ℕ → ℝ) (sig : ℕ → ℕ → ℝ) : ℕ → ℕ → ℝ :=
  fun i j =>
    if doNsCor m data i j then
      sig i j - npClip (sig i j - 0.5 * (sig (i - 1) j + sig (i + 1) j)) (-1) 1
    else sig i j

/-- `model = 100` signal estimate: 3-tap vertical running average on rows
`1 ≤ i < m - 4`, the original data elsewhere. -/
noncomputable def rnSig100 (m : ℕ) (data : ℕ → ℕ → ℝ) (i j : ℕ) : ℝ :=
  if 1 ≤ i ∧ i + 4 < m then
    0.333 * data (i - 1) j + 0.334 * data i j + 0.333 * data (i + 1) j
  else data i j

/-- `model = 100` initial noise residual. -/
noncomputable def rnNse100Raw (m : ℕ) (data : ℕ → ℕ → ℝ) (i j : ℕ) : ℝ :=
  data i j - rnSig100 m data i j

/-- `model = 100` noise after the first thresholding pass (zero where the
residual magnitude exceeds `nseSigHi = 2*(2*readNoise)`). -/
noncomputable def rnNse100a (m : ℕ) (data : ℕ → ℕ → ℝ) (readNoise : ℝ) (i j : ℕ) : ℝ :=
  if 2 * (2 * readNoise) < |rnNse100Raw m data i j| then 0 else rnNse100Raw m data i j

/-- `model = 100` noise after the taper pass (the `sign` is taken of the
already-thresholded value, as in the code). -/
noncomputable def rnNse100b (m : ℕ) (data : ℕ → ℕ → ℝ) (readNoise : ℝ) (i j : ℕ) : ℝ :=
  if 2 * readNoise < |rnNse100Raw m data i j| then
    (2 * (2 * readNoise) - |rnNse100Raw m data i j|) * npSign (rnNse100a m data readNoise i j)
  else rnNse100a m data readNoise i j

/-- `_DecomposeRN(data_e, model, nitrn, readNoise)` returning
`(sigArr, nseArr)`. -/
noncomputable def DecomposeRN (m : ℕ) (data : ℕ → ℕ → ℝ) (model : ℤ) (nitrn : ℕ)
    (readNoise : ℝ) : (ℕ → ℕ → ℝ) × (ℕ → ℕ → ℝ) :=
  if model = 1 then
    ((rnStep m data)^[nitrn] data, fun i j => data i j - (rnStep m data)^[nitrn] data i j)
  else if model = 100 then
    (fun i j => data i j - rnNse100b m data readNoise i j,
     fun i j => rnNse100b m data readNoise i j)
  else (data, fun _ _ => 0)

/-! ### The `YCte` per-amplifier correction loop

State: per-amplifier SCI and ERR arrays.  The external C kernel
`PixCte_FixY.FixYCte` is an opaque parameter `fixY` returning the corrected
noiseless image (in DN) and a status code; a non-zero status skips the
amplifier (`continue`). -/

/-- Per-amplifier SCI and ERR data of the exposure being corrected. -/
structure AmpState where
  sci : ℕ → ℕ → ℕ → ℝ
  err : ℕ → ℕ → ℕ → ℝ

/-- The fixed per-exposure inputs of the `YCte` amp loop. -/
structure YCteParams where
  m : ℕ
  model : ℤ
  nitrn : ℕ
  rdns : ℕ → ℝ
  gain : ℕ → ℝ
  fixY : ℕ → (ℕ → ℕ → ℝ) → (ℕ → ℕ → ℝ) × ℤ

/-- `sciAmpSig / gain[amp]`: the noiseless image converted to DN, as handed
to the kernel. -/
noncomputable def ampSigDN (P : YCteParams) (st : AmpState) (amp : ℕ) : ℕ → ℕ → ℝ :=
  fun i j => (DecomposeRN P.m (st.sci amp) P.model P.nitrn (P.rdns amp)).1 i j / P.gain amp

/-- The kernel's status code for an amplifier at the given state. -/
noncomputable def ampStatus (P : YCteParams) (st : AmpState) (amp : ℕ) : ℤ :=
  (P.fixY amp (ampSigDN P st amp)).2

/-- `sciAmpFin = sciAmpCor * gain[amp] + sciAmpNse`. -/
noncomputable def ampFin (P : YCteParams) (st : AmpState) (amp : ℕ) : ℕ → ℕ → ℝ :=
  fun i j =>
    (P.fixY amp (ampSigDN P st amp)).1 i j * P.gain amp +
      (DecomposeRN P.m (st.sci amp) P.model P.nitrn (P.rdns amp)).2 i j

/-- `errAmpFin = sqrt(errAmpSig**2 + (0.1*abs(sciAmpFin - sciAmpOrig))**2)`. -/
noncomputable def ampErrFin (P : YCteParams) (st : AmpState) (amp : ℕ) : ℕ → ℕ → ℝ :=
  fun i j =>
    Real.sqrt ((st.err amp i j) ^ 2 + (0.1 * |ampFin P st amp i j - st.sci amp i j|) ^ 2)

/-- One iteration of the amp loop: on non-zero kernel status the state is
untouched (`continue`); otherwise the amplifier's SCI and ERR are written. -/
noncomputable def ampStep (P : YCteParams) (st : AmpState) (amp : ℕ) : AmpState :=
  if ampStatus P st amp ≠ 0 then st
  else
    ⟨fun a => if a = amp then ampFin P st amp else st.sci a,
     fun a => if a = amp then ampErrFin P st amp else st.err a⟩

/-- The `YCte` loop over the amplifier list. -/
noncomputable def yCteLoop (P : YCteParams) (amps : List ℕ) (st : AmpState) : AmpState :=
  amps.foldl (ampStep P) st

/-! ### Concrete inputs used in counterexamples and witnesses -/

/-- An all-zero exposure state. -/
noncomputable def zeroState : AmpState := ⟨fun _ _ _ => 0, fun _ _ _ => 0⟩

/-- Parameters whose kernel reports failure (status 1) for amplifier 0 and
success for the others, echoing its input. -/
noncomputable def exParamsSkip : YCteParams :=
  ⟨1, 0, 0, fun _ => 1, fun _ => 1, fun a s => (s, if a = 0 then 1 else 0)⟩

/-- Parameters whose kernel always succeeds, echoing its input. -/
noncomputable def exParamsOk : YCteParams :=
  ⟨1, 0, 0, fun _ => 1, fun _ => 1, fun _ s => (s, 0)⟩

/-- A constant-1 PSI calibration table. -/
def psiClEx : ℕ → ℕ → ℚ := fun _ _ => 1

/-- PSI nodes at offsets 1 and 2 (strictly increasing, starting at 1, last
node at most 100). -/
def psiPnEx : ℕ → ℕ := fun i => i + 1

/-- A PSI calibration table whose node values differ per node. -/
def psiClW : ℕ → ℕ → ℚ := fun n _ => (n : ℚ)

/-- PSI nodes at offsets 1 and 100 (last node equal to the dense bound). -/
def psiPnW : ℕ → ℕ := fun i => if i = 0 then 1 else 100

/-- A constant-1 interpolated PSI table. -/
noncomputable def ktPosEx : ℕ → ℕ → ℝ := fun _ _ => 1

/-- An interpolated PSI table with one negative entry per column but
positive column sums. -/
noncomputable def ktMixEx : ℕ → ℕ → ℝ := fun t _ => if t = 0 then 2 else if t = 1 then -1 else 0

/-- A constant-(-1) interpolated PSI table (negative column sums). -/
noncomputable def ktNegEx : ℕ → ℕ → ℝ := fun _ _ => -1

/-- A constant inverse charge map. -/
noncomputable def pixqEx : ℕ → ℝ := fun _ => 10

/-! ## Theorems -/

/-- C1: for every noise model (0, 1, 100, and any other selector value,
which falls back to the identity split) and every input array, the signal
and noise arrays returned by `_DecomposeRN` satisfy
`signal + noise = original` pointwise, as an exact arithmetic identity;
both returned arrays are functions on the same index domain as the input,
so they have the input's shape by construction. -/
theorem C1_signal_plus_noise (m : ℕ) (data : ℕ → ℕ → ℝ) (model : ℤ) (nitrn : ℕ)
    (rdn : ℝ) (i j : ℕ) :
    (DecomposeRN m data model nitrn rdn).1 i j + (DecomposeRN m data model nitrn rdn).2 i j =
      data i j := by
  unfold DecomposeRN
  by_cases h1 : model = 1
  · rw [if_pos h1]; dsimp only; ring
  · rw [if_neg h1]
    by_cases h2 : model = 100
    · rw [if_pos h2]; dsimp only; ring
    · rw [if_neg h2]; dsimp only; ring

/-- C9: `_CalcCteFrac` for the WFC detector is exactly the unclipped linear
formula `(mjd - 52335) / (55105 - 52335)`, giving 0 at the first calibration
epoch and 1 at the second; the underlying formula `cteFracFormula` fails
(returns no value, Python's `ZeroDivisionError`) whenever its two
calibration epochs coincide — with the code's constant epochs this branch is
unreachable. -/
theorem C9_cte_frac (mjd c : ℚ) :
    CalcCteFrac mjd 0 = some ((mjd - 52335) / (55105 - 52335)) ∧
    CalcCteFrac 52335 0 = some 0 ∧
    CalcCteFrac 55105 0 = some 1 ∧
    cteFracFormula mjd c c = none := by
  refine ⟨?_, ?_, ?_, ?_⟩
  · unfold CalcCteFrac cteFracFormula pyDiv
    rw [if_pos rfl, if_neg (by norm_num)]
  · unfold CalcCteFrac cteFracFormula pyDiv
    rw [if_pos rfl, if_neg (by norm_num)]
    norm_num
  · unfold CalcCteFrac cteFracFormula pyDiv
    rw [if_pos rfl, if_neg (by norm_num)]
    norm_num
  · unfold cteFracFormula pyDiv
    rw [if_pos (by ring)]

/-- The clip to `[-1, 1]` used by noise model 1 is bounded by 1 in
magnitude. -/
theorem npClip_abs_le (x : ℝ) : |npClip x (-1) 1| ≤ 1 := by
  unfold npClip
  rw [abs_le]
  exact ⟨le_min (le_max_right x (-1)) (by norm_num), min_le_right _ _⟩

/-- One model-1 iteration moves any pixel by at most one electron. -/
theorem rnStep_abs_le (m : ℕ) (data sig : ℕ → ℕ → ℝ) (i j : ℕ) :
    |rnStep m data sig i j - sig i j| ≤ 1 := by
  unfold rnStep
  by_cases h : doNsCor m data i j
  · rw [if_pos h]
    have hc : sig i j - npClip (sig i j - 0.5 * (sig (i - 1) j + sig (i + 1) j)) (-1) 1 -
        sig i j = -(npClip (sig i j - 0.5 * (sig (i - 1) j + sig (i + 1) j)) (-1) 1) := by
      ring
    rw [hc, abs_neg]
    exact npClip_abs_le _
  · rw [if_neg h]
    simp

/-- One model-1 iteration never touches the first or last image row. -/
theorem rnStep_edge (m : ℕ) (data sig : ℕ → ℕ → ℝ) (i j : ℕ) (h : i = 0 ∨ i + 1 = m) :
    rnStep m data sig i j = sig i j := by
  unfold rnStep
  rw [if_neg]
  intro hd
  have h1 : interiorRow m i := hd.1
  unfold interiorRow at h1
  omega

/-- After `n` model-1 iterations the accumulated change of any pixel is at
most `n` electrons. -/
theorem rn_iterate_bound (m : ℕ) (data : ℕ → ℕ → ℝ) (n : ℕ) (i j : ℕ) :
    |data i j - (rnStep m data)^[n] data i j| ≤ (n : ℝ) := by
  induction n with
  | zero => simp
  | succ n ih =>
    rw [Function.iterate_succ_apply']
    have h2 : |(rnStep m data)^[n] data i j -
        rnStep m data ((rnStep m data)^[n] data) i j| ≤ 1 := by
      rw [abs_sub_comm]
      exact rnStep_abs_le m data _ i j
    calc |data i j - rnStep m data ((rnStep m data)^[n] data) i j|
        ≤ |data i j - (rnStep m data)^[n] data i j| +
          |(rnStep m data)^[n] data i j -
            rnStep m data ((rnStep m data)^[n] data) i j| := abs_sub_le _ _ _
      _ ≤ (n : ℝ) + 1 := add_le_add ih h2
      _ = ((n + 1 : ℕ) : ℝ) := by push_cast; ring

/-- Edge rows survive any number of model-1 iterations unchanged. -/
theorem rn_iterate_edge (m : ℕ) (data : ℕ → ℕ → ℝ) (n : ℕ) (i j : ℕ)
    (h : i = 0 ∨ i + 1 = m) : (rnStep m data)^[n] data i j = data i j := by
  induction n with
  | zero => rfl
  | succ n ih =>
    rw [Function.iterate_succ_apply', rnStep_edge m data _ i j h, ih]

/-- C10: in noise model 1 with iteration count `nitrn`, each iteration
changes any pixel of the running signal estimate by at most one electron
(the residual is clipped to `[-1, 1]` before subtraction), no iteration
modifies the first or last row, hence after separation every noise entry
has absolute value at most `nitrn` and the signal equals the input on the
first and last rows. -/
theorem C10_model1_bounds (m : ℕ) (data : ℕ → ℕ → ℝ) (nitrn : ℕ) (rdn : ℝ) :
    (∀ sig i j, |rnStep m data sig i j - sig i j| ≤ 1) ∧
    (∀ sig i j, i = 0 ∨ i + 1 = m → rnStep m data sig i j = sig i j) ∧
    (∀ i j, |(DecomposeRN m data 1 nitrn rdn).2 i j| ≤ (nitrn : ℝ)) ∧
    (∀ i j, i = 0 ∨ i + 1 = m → (DecomposeRN m data 1 nitrn rdn).1 i j = data i j) := by
  refine ⟨fun sig i j => rnStep_abs_le m data sig i j,
          fun sig i j h => rnStep_edge m data sig i j h, ?_, ?_⟩
  · intro i j
    unfold DecomposeRN
    rw [if_pos rfl]
    exact rn_iterate_bound m data nitrn i j
  · intro i j h
    unfold DecomposeRN
    rw [if_pos rfl]
    exact rn_iterate_edge m data nitrn i j h

/-- C10 witness: the theorem applied to a concrete 2-row zero image with one
iteration; the edge-row clause is exercised at row 0. -/
theorem C10_model1_bounds_witness :
    |(DecomposeRN 2 (fun _ _ => (0 : ℝ)) 1 1 0).2 0 0| ≤ ((1 : ℕ) : ℝ) ∧
    (DecomposeRN 2 (fun _ _ => (0 : ℝ)) 1 1 0).1 0 0 = 0 :=
  ⟨(C10_model1_bounds 2 (fun _ _ => 0) 1 0).2.2.1 0 0,
   (C10_model1_bounds 2 (fun _ _ => 0) 1 0).2.2.2 0 0 (Or.inl rfl)⟩

/-- The log coordinate `rl` is at least 1 on the whole charge domain. -/
theorem phiRl_ge_one (p : ℕ) : 1 ≤ phiRl p := by
  unfold phiRl
  have h : 0 ≤ Real.logb 10 ((p : ℝ) + 1) :=
    Real.logb_nonneg (by norm_num) (by linarith [Nat.cast_nonneg (α := ℝ) p])
  linarith

/-- `ll = int(rl)` is at least 1, so the lower interpolation node `kl = ll - 1`
is a valid index. -/
theorem phiLl_ge_one (p : ℕ) : 1 ≤ phiLl p :=
  Int.le_floor.mpr (by exact_mod_cast phiRl_ge_one p)

/-- The interpolation weight `fl` lies in `[0, 1)`. -/
theorem phiFl_mem (p : ℕ) : 0 ≤ phiFl p ∧ phiFl p < 1 := by
  have h : phiFl p = Int.fract (phiRl p) := rfl
  rw [h]
  exact ⟨Int.fract_nonneg _, Int.fract_lt_one _⟩

/-- With nonnegative calibration values and a nonnegative time scalar, every
dense fill value is nonnegative. -/
theorem dtde_q_nonneg (dl : ℕ → ℝ) (cf : ℝ) (hd : ∀ i, 0 ≤ dl i) (hc : 0 ≤ cf) (p : ℕ) :
    0 ≤ dtde_q dl cf p := by
  obtain ⟨hf0, hf1⟩ := phiFl_mem p
  unfold dtde_q
  have ha := hd ((phiLl p).toNat - 1)
  have hb := hd (phiLl p).toNat
  have h1 : 0 ≤ phiFl p * dl (phiLl p).toNat := mul_nonneg hf0 hb
  have h2 : 0 ≤ (1 - phiFl p) * dl ((phiLl p).toNat - 1) :=
    mul_nonneg (by linarith) ha
  nlinarith

/-- The running sum of `_InterpolatePhi` is monotone under the same
hypotheses. -/
theorem ctde_q_mono (dl : ℕ → ℝ) (cf : ℝ) (hd : ∀ i, 0 ≤ dl i) (hc : 0 ≤ cf)
    {p q : ℕ} (h : p ≤ q) : ctde_q dl cf p ≤ ctde_q dl cf q :=
  Finset.sum_le_sum_of_subset_of_nonneg (Finset.range_subset.mpr (by omega))
    (fun i _ _ => dtde_q_nonneg dl cf hd hc i)

/-- The running sums are nonnegative. -/
theorem ctde_q_nonneg (dl : ℕ → ℝ) (cf : ℝ) (hd : ∀ i, 0 ≤ dl i) (hc : 0 ≤ cf) (p : ℕ) :
    0 ≤ ctde_q dl cf p :=
  Finset.sum_nonneg fun i _ => dtde_q_nonneg dl cf hd hc i

/-- Truncation toward zero agrees with the floor on nonnegative reals. -/
theorem truncInt_of_nonneg {x : ℝ} (hx : 0 ≤ x) : truncInt x = ⌊x⌋ :=
  if_neg (not_lt.mpr hx)

/-- C7: with nonnegative fill values and a nonnegative time scalar, the
cumulative sum built by `_InterpolatePhi` is non-decreasing in the charge
level, and every entry of `q_pix_array` is at least 1 (the `clip(1)` bound
holds unconditionally). -/
theorem C7_cumsum_mono_and_clip (dl : ℕ → ℝ) (cf : ℝ)
    (hd : ∀ i, 0 ≤ dl i) (hc : 0 ≤ cf) :
    (∀ p q, p ≤ q → ctde_q dl cf p ≤ ctde_q dl cf q) ∧
    (∀ p, 1 ≤ q_pix_array dl cf p) := by
  refine ⟨fun p q h => ctde_q_mono dl cf hd hc h, fun p => le_max_right _ _⟩

/-- C7 witness: the theorem at the all-zero calibration input. -/
theorem C7_cumsum_mono_and_clip_witness :
    (∀ i : ℕ, (0 : ℝ) ≤ (fun _ => (0 : ℝ)) i) ∧ (0 : ℝ) ≤ 0 ∧
    1 ≤ q_pix_array (fun _ => 0) 0 0 :=
  ⟨fun _ => le_refl 0, le_refl 0,
   (C7_cumsum_mono_and_clip (fun _ => 0) 0 (fun _ => le_refl 0) (le_refl 0)).2 0⟩

/-- At the all-zero calibration input every dense fill value vanishes. -/
theorem dtde_q_zero (p : ℕ) : dtde_q (fun _ => 0) 0 p = 0 := by
  unfold dtde_q
  ring

/-- C6 counterexample: at the all-zero calibration input (which satisfies
the claim's nonnegativity preconditions) `_YCTE_QMAX = int(dtde_q.sum())`
is 0, yet every entry of `q_pix_array` is 1 because of the `clip(1)`; hence
`QMAX` is not the maximum entry attained by `q_pix_array`. -/
theorem C6_counterexample :
    yCteQmax (fun _ => 0) 0 = 0 ∧ q_pix_array (fun _ => 0) 0 0 = 1 ∧
    yCteQmax (fun _ => 0) 0 < q_pix_array (fun _ => 0) 0 0 := by
  have hq : yCteQmax (fun _ => 0) 0 = 0 := by
    unfold yCteQmax
    rw [Finset.sum_congr rfl fun i _ => dtde_q_zero i]
    simp [truncInt]
  have hp : q_pix_array (fun _ => 0) 0 0 = 1 := by
    unfold q_pix_array ctde_q
    rw [Finset.sum_congr rfl fun i _ => dtde_q_zero i]
    simp [truncInt]
  exact ⟨hq, hp, by rw [hq, hp]; norm_num⟩

/-- C6 (amended): with nonnegative fill values and a nonnegative time
scalar, `QMAX` equals the floor of the total sum of the dense fill values;
provided that floor is at least 1, `QMAX` is also the maximum entry attained
by `q_pix_array` (every entry is at most `QMAX` and the last entry equals
it).  When the total sum is below 1 the `clip(1)` lifts every entry of
`q_pix_array` to 1 while `QMAX` is 0, so the extra hypothesis is needed. -/
theorem C6_qmax_is_max (dl : ℕ → ℝ) (cf : ℝ)
    (hd : ∀ i, 0 ≤ dl i) (hc : 0 ≤ cf) (h1 : 1 ≤ yCteQmax dl cf) :
    yCteQmax dl cf = ⌊∑ i ∈ Finset.range pMaxPhi, dtde_q dl cf i⌋ ∧
    (∀ p, p < pMaxPhi → q_pix_array dl cf p ≤ yCteQmax dl cf) ∧
    q_pix_array dl cf (pMaxPhi - 1) = yCteQmax dl cf := by
  have htotal : (∑ i ∈ Finset.range pMaxPhi, dtde_q dl cf i) = ctde_q dl cf (pMaxPhi - 1) := by
    unfold ctde_q
    norm_num [pMaxPhi]
  have hnn : 0 ≤ ∑ i ∈ Finset.range pMaxPhi, dtde_q dl cf i :=
    Finset.sum_nonneg fun i _ => dtde_q_nonneg dl cf hd hc i
  have hqdef : yCteQmax dl cf = ⌊∑ i ∈ Finset.range pMaxPhi, dtde_q dl cf i⌋ := by
    unfold yCteQmax
    exact truncInt_of_nonneg hnn
  refine ⟨hqdef, ?_, ?_⟩
  · intro p hp
    unfold q_pix_array
    rw [truncInt_of_nonneg (ctde_q_nonneg dl cf hd hc p)]
    refine max_le ?_ h1
    rw [hqdef, htotal]
    exact Int.floor_le_floor (ctde_q_mono dl cf hd hc (by omega))
  · unfold q_pix_array
    rw [truncInt_of_nonneg (ctde_q_nonneg dl cf hd hc _), ← htotal, ← hqdef]
    exact max_eq_left h1

/-- At the constant-1 calibration input with time scalar 1 every dense fill
value is exactly 1. -/
theorem dtde_q_one (p : ℕ) : dtde_q (fun _ => 1) 1 p = 1 := by
  unfold dtde_q
  ring

/-- The total fill sum at the constant-1 input is 49999, so `QMAX` is
49999. -/
theorem yCteQmax_one : yCteQmax (fun _ => 1) 1 = 49999 := by
  unfold yCteQmax
  rw [Finset.sum_congr rfl fun i _ => dtde_q_one i]
  rw [Finset.sum_const, Finset.card_range]
  norm_num [pMaxPhi, truncInt]

/-- C6 witness: the amended theorem at the constant-1 calibration input,
whose total integral is 49999 ≥ 1. -/
theorem C6_qmax_is_max_witness :
    (∀ i : ℕ, (0 : ℝ) ≤ (fun _ => (1 : ℝ)) i) ∧ (0 : ℝ) ≤ 1 ∧
    1 ≤ yCteQmax (fun _ => 1) 1 ∧
    q_pix_array (fun _ => 1) 1 (pMaxPhi - 1) = yCteQmax (fun _ => 1) 1 :=
  ⟨fun _ => by norm_num, by norm_num, by rw [yCteQmax_one]; norm_num,
   (C6_qmax_is_max (fun _ => 1) 1 (fun _ => by norm_num) (by norm_num)
     (by rw [yCteQmax_one]; norm_num)).2.2⟩

/-- The clipped log-charge coordinate lies in `[1, 4]`. -/
theorem trackLp_mem (pixq : ℕ → ℝ) (q : ℕ) : 1 ≤ trackLp pixq q ∧ trackLp pixq q ≤ 4 := by
  unfold trackLp npClip
  exact ⟨le_min (le_max_right _ _) (by norm_num), min_le_right _ _⟩

/-- The band-interpolation weight `flp` lies in `[0, 1]`. -/
theorem trackFlp_mem (pixq : ℕ → ℝ) (q : ℕ) : 0 ≤ trackFlp pixq q ∧ trackFlp pixq q ≤ 1 := by
  obtain ⟨h1, h4⟩ := trackLp_mem pixq q
  unfold trackFlp trackK
  by_cases hlt : trackLp pixq q < 2
  · rw [if_pos hlt]
    push_cast
    constructor <;> linarith
  · rw [if_neg hlt]
    by_cases hge : 3 ≤ trackLp pixq q
    · rw [if_pos hge]
      push_cast
      constructor <;> linarith
    · rw [if_neg hge]
      push_cast
      constructor <;> linarith

/-- With an entrywise-nonnegative PSI table, every pre-normalization column
entry is nonnegative (it is a convex combination of two PSI entries). -/
theorem trackRaw_nonneg (kt : ℕ → ℕ → ℝ) (pixq : ℕ → ℝ) (t q : ℕ)
    (hkt : ∀ t c, 0 ≤ kt t c) : 0 ≤ trackRaw kt pixq t q := by
  obtain ⟨hf0, hf1⟩ := trackFlp_mem pixq q
  unfold trackRaw
  have ha := hkt t (trackK pixq q)
  have hb := hkt t (trackK pixq q + 1)
  have h1 : 0 ≤ trackFlp pixq q * kt t (trackK pixq q + 1) := mul_nonneg hf0 hb
  have h2 : 0 ≤ (1 - trackFlp pixq q) * kt t (trackK pixq q) := mul_nonneg (by linarith) ha
  nlinarith

/-- Whenever a column's pre-normalization sum is nonzero, the normalized
leak column sums exactly to 1. -/
theorem leak_col_sum (kt : ℕ → ℕ → ℝ) (pixq : ℕ → ℝ) (maxNode q : ℕ)
    (hsum : trackColSum kt pixq maxNode q ≠ 0) :
    ∑ t ∈ Finset.range maxNode, chg_leak_tq kt pixq maxNode t q = 1 := by
  unfold chg_leak_tq
  rw [← Finset.sum_div]
  exact div_self hsum

/-- C4 (amended): for a PSI table with nonnegative entries and a column
whose pre-normalization sum is positive, the normalized leak column sums to
1 (exactly, hence within the 1e-9 tolerance), and the open-table column is
non-decreasing along the offset axis with last-offset entry 1.  Without the
entrywise nonnegativity of the PSI input, a positive column sum does not
make the open column monotone (see the counterexample). -/
theorem C4_column_normalization (kt : ℕ → ℕ → ℝ) (pixq : ℕ → ℝ) (maxNode q : ℕ)
    (hmn : 0 < maxNode) (hkt : ∀ t c, 0 ≤ kt t c)
    (hsum : 0 < trackColSum kt pixq maxNode q) :
    |(∑ t ∈ Finset.range maxNode, chg_leak_tq kt pixq maxNode t q) - 1| ≤ 1 / 1000000000 ∧
    (∀ t t', t ≤ t' → chg_open_tq kt pixq maxNode t q ≤ chg_open_tq kt pixq maxNode t' q) ∧
    |chg_open_tq kt pixq maxNode (maxNode - 1) q - 1| ≤ 1 / 1000000000 := by
  have hne : trackColSum kt pixq maxNode q ≠ 0 := ne_of_gt hsum
  have hsum1 := leak_col_sum kt pixq maxNode q hne
  have hlast : chg_open_tq kt pixq maxNode (maxNode - 1) q = 1 := by
    unfold chg_open_tq
    have hr : maxNode - 1 + 1 = maxNode := by omega
    rw [hr]
    exact hsum1
  refine ⟨by rw [hsum1]; norm_num, ?_, by rw [hlast]; norm_num⟩
  intro t t' h
  unfold chg_open_tq
  refine Finset.sum_le_sum_of_subset_of_nonneg (Finset.range_subset.mpr (by omega)) ?_
  intro s _ _
  exact div_nonneg (trackRaw_nonneg kt pixq s q hkt) (le_of_lt hsum)

/-- At the constant-1 PSI table every pre-normalization entry is 1. -/
theorem ktPos_raw (t q : ℕ) : trackRaw ktPosEx pixqEx t q = 1 := by
  unfold trackRaw ktPosEx
  ring

/-- The constant-1 PSI table gives column sums of 100 over the 100 tracked
offsets. -/
theorem ktPos_colSum (q : ℕ) : trackColSum ktPosEx pixqEx 100 q = 100 := by
  unfold trackColSum
  rw [Finset.sum_congr rfl fun t _ => ktPos_raw t q]
  rw [Finset.sum_const, Finset.card_range]
  norm_num

/-- C4 witness: the amended theorem at the constant-1 PSI table over the
100-offset domain. -/
theorem C4_column_normalization_witness :
    (0 : ℕ) < 100 ∧ (∀ t c : ℕ, (0 : ℝ) ≤ ktPosEx t c) ∧
    0 < trackColSum ktPosEx pixqEx 100 0 ∧
    |chg_open_tq ktPosEx pixqEx 100 99 0 - 1| ≤ 1 / 1000000000 :=
  ⟨by norm_num, fun t c => by unfold ktPosEx; norm_num,
   by rw [ktPos_colSum]; norm_num,
   (C4_column_normalization ktPosEx pixqEx 100 0 (by norm_num)
     (fun t c => by unfold ktPosEx; norm_num) (by rw [ktPos_colSum]; norm_num)).2.2⟩

/-- The mixed-sign PSI table has pre-normalization entries 2, −1, 0, … (the
columns do not depend on the selected band, so the interpolation weight
cancels). -/
theorem ktMix_raw (t q : ℕ) :
    trackRaw ktMixEx pixqEx t q = if t = 0 then 2 else if t = 1 then -1 else 0 := by
  unfold trackRaw ktMixEx
  ring

/-- The mixed-sign PSI table produces a positive pre-normalization column
sum (= 1) over the 100 tracked offsets. -/
theorem ktMix_colSum (q : ℕ) : trackColSum ktMixEx pixqEx 100 q = 1 := by
  unfold trackColSum
  rw [Finset.sum_congr rfl fun t _ => ktMix_raw t q]
  have hsplit : ∀ t : ℕ, (if t = 0 then (2 : ℝ) else if t = 1 then -1 else 0) =
      (if t = 0 then (2 : ℝ) else 0) + (if t = 1 then (-1 : ℝ) else 0) := by
    intro t
    by_cases h0 : t = 0
    · subst h0; norm_num
    · by_cases h1 : t = 1 <;> simp [h0, h1]
  rw [Finset.sum_congr rfl fun t _ => hsplit t, Finset.sum_add_distrib,
    Finset.sum_ite_eq' (Finset.range 100) 0 (fun _ => (2 : ℝ)),
    Finset.sum_ite_eq' (Finset.range 100) 1 (fun _ => (-1 : ℝ))]
  norm_num

/-- C4 counterexample: a PSI input with one negative entry per column still
satisfies the claim's stated precondition (positive pre-normalization column
sum), yet the open table decreases from offset row 0 to offset row 1 — the
normalized leak column is `[2, −1, 0, …]`, so the cumulative column is not
non-decreasing. -/
theorem C4_counterexample :
    0 < trackColSum ktMixEx pixqEx 100 0 ∧
    chg_open_tq ktMixEx pixqEx 100 1 0 < chg_open_tq ktMixEx pixqEx 100 0 0 := by
  have hs := ktMix_colSum 0
  refine ⟨by rw [hs]; norm_num, ?_⟩
  unfold chg_open_tq chg_leak_tq
  rw [hs]
  simp only [div_one, ktMix_raw]
  norm_num [Finset.sum_range_succ, Finset.sum_range_zero]

/-- The constant-(−1) PSI table has all pre-normalization entries −1. -/
theorem ktNeg_raw (t q : ℕ) : trackRaw ktNegEx pixqEx t q = -1 := by
  unfold trackRaw ktNegEx
  ring

/-- The constant-(−1) PSI table has column sum −100 over the 100 tracked
offsets. -/
theorem ktNeg_colSum (q : ℕ) : trackColSum ktNegEx pixqEx 100 q = -100 := by
  unfold trackColSum
  rw [Finset.sum_congr rfl fun t _ => ktNeg_raw t q]
  rw [Finset.sum_const, Finset.card_range]
  norm_num

/-- C8 counterexample: at a column whose pre-normalization sum is −100 ≤ 0,
`_TrackChargeTrap` does not fail — it divides by the negative sum and
returns a perfectly well-formed table (every normalized entry is 1/100 and
the column sums to 1).  There is no degenerate-column check anywhere in the
function. -/
theorem C8_counterexample :
    trackColSum ktNegEx pixqEx 100 0 ≤ 0 ∧
    chg_leak_tq ktNegEx pixqEx 100 0 0 = 1 / 100 ∧
    (∑ t ∈ Finset.range 100, chg_leak_tq ktNegEx pixqEx 100 t 0) = 1 := by
  have hs := ktNeg_colSum 0
  refine ⟨by rw [hs]; norm_num, ?_, ?_⟩
  · unfold chg_leak_tq
    rw [hs, ktNeg_raw]
    norm_num
  · exact leak_col_sum ktNegEx pixqEx 100 0 (by rw [hs]; norm_num)

/-- C8 (amended): `_TrackChargeTrap` performs no degenerate-column check; it
divides every column by its own sum unconditionally.  In particular a column
with strictly negative pre-normalization sum still yields a table whose
column sums to 1 (the normalization flips the signs of the entries) instead
of a raised error; only a zero sum produces non-finite entries, again
without raising. -/
theorem C8_no_degenerate_check (kt : ℕ → ℕ → ℝ) (pixq : ℕ → ℝ) (maxNode q : ℕ)
    (hsum : trackColSum kt pixq maxNode q < 0) :
    ∑ t ∈ Finset.range maxNode, chg_leak_tq kt pixq maxNode t q = 1 :=
  leak_col_sum kt pixq maxNode q (ne_of_lt hsum)

/-- C8 witness: the amended theorem at the constant-(−1) PSI table. -/
theorem C8_no_degenerate_check_witness :
    trackColSum ktNegEx pixqEx 100 0 < 0 ∧
    (∑ t ∈ Finset.range 100, chg_leak_tq ktNegEx pixqEx 100 t 0) = 1 :=
  ⟨by rw [ktNeg_colSum]; norm_num,
   C8_no_degenerate_check ktNegEx pixqEx 100 0 (by rw [ktNeg_colSum]; norm_num)⟩

/-- Strict monotonicity of the node offsets extends from adjacent pairs to
arbitrary index pairs below the node count. -/
theorem pn_lt_of_lt (pn : ℕ → ℕ) (nNodes : ℕ)
    (hmono : ∀ i, i + 1 < nNodes → pn i < pn (i + 1)) :
    ∀ j i, i < j → j < nNodes → pn i < pn j := by
  intro j
  induction j with
  | zero => omega
  | succ j ih =>
    intro i hi hj
    rcases Nat.lt_succ_iff_lt_or_eq.mp hi with h | h
    · exact lt_trans (ih i h (by omega)) (hmono j hj)
    · subst h
      exact hmono i hj

/-- All node offsets are at least 1 when the first node is offset 1. -/
theorem pn_one_le (pn : ℕ → ℕ) (nNodes : ℕ)
    (hmono : ∀ i, i + 1 < nNodes → pn i < pn (i + 1)) (h0 : pn 0 = 1)
    (i : ℕ) (hi : i < nNodes) : 1 ≤ pn i := by
  rcases Nat.eq_zero_or_pos i with h | h
  · subst h
    omega
  · have := pn_lt_of_lt pn nNodes hmono i 0 h hi
    omega

/-- Unfolding one segment write of `_InterpolatePsi`'s loop. -/
theorem psiFold_succ (cl : ℕ → ℕ → ℚ) (pn : ℕ → ℕ) (N : ℕ) :
    psiFold cl pn (N + 1) = psiSeg cl pn N (psiFold cl pn N) := by
  unfold psiFold
  rw [List.range_succ, List.foldl_append, List.foldl_cons, List.foldl_nil]

/-- Value of the partially built dense PSI table at a node row: once the
node's own segment has been written the row holds the calibration value
exactly (the interpolation weight vanishes at the left endpoint), and later
segments never overwrite it; before that it is still the initial zero. -/
theorem psiFold_at_node (cl : ℕ → ℕ → ℚ) (pn : ℕ → ℕ) (nNodes : ℕ)
    (hmono : ∀ i, i + 1 < nNodes → pn i < pn (i + 1)) (h0 : pn 0 = 1)
    (nIdx : ℕ) (hIdx : nIdx + 1 < nNodes) (k : ℕ) :
    ∀ N, N + 1 ≤ nNodes →
      psiFold cl pn N (pn nIdx - 1) k = if nIdx < N then cl nIdx k else 0 := by
  have h1pn : 1 ≤ pn nIdx := pn_one_le pn nNodes hmono h0 nIdx (by omega)
  have hsub : pn nIdx - 1 + 1 = pn nIdx := by omega
  intro N
  induction N with
  | zero =>
    intro _
    simp [psiFold]
  | succ N ih =>
    intro hN
    rw [psiFold_succ]
    have hIH := ih (by omega)
    unfold psiSeg
    by_cases hguard : pn N ≤ pn nIdx - 1 + 1 ∧ pn nIdx - 1 + 1 < pn (N + 1)
    · rw [if_pos hguard]
      have hEq : nIdx = N := by
        obtain ⟨hg1, hg2⟩ := hguard
        rw [hsub] at hg1 hg2
        by_contra hne
        rcases Nat.lt_or_ge nIdx N with hlt | hge
        · have := pn_lt_of_lt pn nNodes hmono N nIdx hlt (by omega)
          omega
        · have hgt : N + 1 ≤ nIdx := by omega
          rcases Nat.eq_or_lt_of_le hgt with hE | hL
          · rw [← hE] at hg2
            omega
          · have := pn_lt_of_lt pn nNodes hmono nIdx (N + 1) hL (by omega)
            omega
      subst hEq
      have hcast : ((pn nIdx - 1 : ℕ) : ℚ) = (pn nIdx : ℚ) - 1 := by
        rw [Nat.cast_sub h1pn]
        norm_num
      rw [hcast]
      have hzero : (pn nIdx : ℚ) - 1 + 1 - (pn nIdx : ℚ) = 0 := by ring
      rw [hzero, zero_div, zero_mul, add_zero, if_pos (Nat.lt_succ_self nIdx)]
    · rw [if_neg hguard, hIH]
      have hne : nIdx ≠ N := by
        intro hE
        subst hE
        exact hguard ⟨by rw [hsub], by rw [hsub]; exact hmono nIdx hIdx⟩
      by_cases hlt : nIdx < N
      · rw [if_pos hlt, if_pos (by omega)]
      · rw [if_neg hlt, if_neg (by omega)]

/-- C5 (amended): when the calibration nodes are strictly increasing,
start at offset 1 and the *last node's offset equals the dense bound 100*
(the flight configuration), every row of the dense table at a node offset
exactly equals the calibration input at that node; no offsets beyond the
last node then exist in the table.  With a last offset strictly below 100
the code instead leaves the rows between the last node and offset 100 at
zero and copies the last node only into row 100 (see the counterexample),
so the stated flat extrapolation and last-node exactness fail there. -/
theorem C5_node_exactness (cl : ℕ → ℕ → ℚ) (pn : ℕ → ℕ) (nNodes : ℕ)
    (h2 : 2 ≤ nNodes) (hmono : ∀ i, i + 1 < nNodes → pn i < pn (i + 1))
    (h0 : pn 0 = 1) (hlast : pn (nNodes - 1) = 100) :
    ∀ nIdx, nIdx < nNodes → ∀ k, InterpolatePsi cl pn nNodes (pn nIdx - 1) k = cl nIdx k := by
  intro nIdx hn k
  unfold InterpolatePsi
  rcases Nat.lt_or_ge nIdx (nNodes - 1) with hlt | hge
  · have hIdx : nIdx + 1 < nNodes := by omega
    have hless : pn nIdx < 100 := by
      rw [← hlast]
      exact pn_lt_of_lt pn nNodes hmono (nNodes - 1) nIdx hlt (by omega)
    have h1pn : 1 ≤ pn nIdx := pn_one_le pn nNodes hmono h0 nIdx hn
    rw [if_neg (by omega)]
    rw [psiFold_at_node cl pn nNodes hmono h0 nIdx hIdx k (nNodes - 1) (by omega)]
    rw [if_pos hlt]
  · have hEq : nIdx = nNodes - 1 := by omega
    rw [hEq, hlast]
    rw [if_pos rfl]

/-- C5 counterexample: two nodes at offsets 1 and 2 with all calibration
values 1 (strictly increasing, starting at 1, last offset ≤ 100, as the
claim requires).  The dense row for the last node's own offset (row index 1)
is left at the initial zero and so differs from the calibration value 1,
and the rows beyond the last node (e.g. row index 2, offset 3) are also
zero rather than the last node's values — only row 99 receives them. -/
theorem C5_counterexample :
    psiPnEx 0 = 1 ∧ psiPnEx 0 < psiPnEx 1 ∧ psiPnEx 1 ≤ 100 ∧
    InterpolatePsi psiClEx psiPnEx 2 (psiPnEx 1 - 1) 0 = 0 ∧ psiClEx 1 0 = 1 ∧
    InterpolatePsi psiClEx psiPnEx 2 2 0 = 0 ∧
    InterpolatePsi psiClEx psiPnEx 2 99 0 = 1 := by
  refine ⟨rfl, by decide, by decide, ?_, rfl, ?_, ?_⟩ <;> decide

/-- C5 witness: the amended theorem at a two-node calibration with offsets
1 and 100 and distinct node values; the dense table reproduces the last
node's value at its own row. -/
theorem C5_node_exactness_witness :
    psiPnW 0 = 1 ∧ psiPnW 1 = 100 ∧
    InterpolatePsi psiClW psiPnW 2 (psiPnW 1 - 1) 0 = psiClW 1 0 :=
  ⟨rfl, rfl,
   C5_node_exactness psiClW psiPnW 2 (le_refl 2)
     (fun i hi => by
       have h : i = 0 := by omega
       subst h
       decide)
     rfl rfl 1 (by omega) 0⟩

/-- A loop iteration for one amplifier never touches another amplifier's
data. -/
theorem ampStep_preserve (P : YCteParams) (st : AmpState) (b a : ℕ) (hab : a ≠ b) :
    (ampStep P st b).sci a = st.sci a ∧ (ampStep P st b).err a = st.err a := by
  unfold ampStep
  by_cases h : ampStatus P st b ≠ 0
  · rw [if_pos h]
    exact ⟨rfl, rfl⟩
  · rw [if_neg h]
    exact ⟨if_neg hab, if_neg hab⟩

/-- Splitting the amp loop over list append. -/
theorem yCteLoop_append (P : YCteParams) (l1 l2 : List ℕ) (st : AmpState) :
    yCteLoop P (l1 ++ l2) st = yCteLoop P l2 (yCteLoop P l1 st) := by
  unfold yCteLoop
  rw [List.foldl_append]

/-- Unfolding the head iteration of the amp loop. -/
theorem yCteLoop_cons (P : YCteParams) (b : ℕ) (t : List ℕ) (st : AmpState) :
    yCteLoop P (b :: t) st = yCteLoop P t (ampStep P st b) := by
  unfold yCteLoop
  rw [List.foldl_cons]

/-- The amp loop preserves the data of any amplifier not on its list. -/
theorem yCteLoop_preserve (P : YCteParams) (a : ℕ) :
    ∀ l : List ℕ, a ∉ l → ∀ st : AmpState,
      (yCteLoop P l st).sci a = st.sci a ∧ (yCteLoop P l st).err a = st.err a := by
  intro l
  induction l with
  | nil => exact fun _ _ => ⟨rfl, rfl⟩
  | cons b t ih =>
    intro ha st
    rw [List.mem_cons] at ha
    push_neg at ha
    rw [yCteLoop_cons]
    have hrec := ih ha.2 (ampStep P st b)
    have hstep := ampStep_preserve P st b a ha.1
    exact ⟨hrec.1.trans hstep.1, hrec.2.trans hstep.2⟩

/-- The kernel status for an amplifier depends on the state only through
that amplifier's SCI data. -/
theorem ampStatus_congr (P : YCteParams) (st st' : AmpState) (a : ℕ)
    (h : st.sci a = st'.sci a) : ampStatus P st a = ampStatus P st' a := by
  unfold ampStatus ampSigDN
  rw [h]

/-- The final (noise-recombined) image for an amplifier depends on the state
only through that amplifier's SCI data. -/
theorem ampFin_congr (P : YCteParams) (st st' : AmpState) (a : ℕ)
    (h : st.sci a = st'.sci a) : ampFin P st a = ampFin P st' a := by
  unfold ampFin ampSigDN
  rw [h]

/-- C2: if the external kernel returns a non-zero status code for an
amplifier, that amplifier's SCI and ERR data are left exactly equal to
their pre-correction values, and the loop behaves exactly as if the failed
quadrant were skipped while the remaining quadrants are still processed
(`continue`, not abort). -/
theorem C2_skip_quadrant_on_failure (P : YCteParams) (l1 l2 : List ℕ) (a : ℕ)
    (st0 : AmpState) (h1 : a ∉ l1) (h2 : a ∉ l2)
    (hstat : ampStatus P st0 a ≠ 0) :
    (yCteLoop P (l1 ++ a :: l2) st0).sci a = st0.sci a ∧
    (yCteLoop P (l1 ++ a :: l2) st0).err a = st0.err a ∧
    yCteLoop P (l1 ++ a :: l2) st0 = yCteLoop P (l1 ++ l2) st0 := by
  have hpres := yCteLoop_preserve P a l1 h1 st0
  have hstat1 : ampStatus P (yCteLoop P l1 st0) a ≠ 0 := by
    rw [ampStatus_congr P (yCteLoop P l1 st0) st0 a hpres.1]
    exact hstat
  have hskip : ampStep P (yCteLoop P l1 st0) a = yCteLoop P l1 st0 := by
    unfold ampStep
    rw [if_pos hstat1]
  have hmain : yCteLoop P (l1 ++ a :: l2) st0 = yCteLoop P (l1 ++ l2) st0 := by
    rw [yCteLoop_append, yCteLoop_cons, hskip, yCteLoop_append]
  have hmem : a ∉ l1 ++ l2 := by
    rw [List.mem_append]
    push_neg
    exact ⟨h1, h2⟩
  have hfin := yCteLoop_preserve P a (l1 ++ l2) hmem st0
  exact ⟨by rw [hmain]; exact hfin.1, by rw [hmain]; exact hfin.2, hmain⟩

/-- C2 witness: a two-amplifier run whose kernel fails on amplifier 0; the
theorem is applied at that concrete configuration. -/
theorem C2_skip_quadrant_on_failure_witness :
    (0 : ℕ) ∉ ([] : List ℕ) ∧ (0 : ℕ) ∉ [1] ∧
    ampStatus exParamsSkip zeroState 0 ≠ 0 ∧
    (yCteLoop exParamsSkip ([] ++ 0 :: [1]) zeroState).sci 0 = zeroState.sci 0 := by
  have hstat : ampStatus exParamsSkip zeroState 0 ≠ 0 := by decide
  exact ⟨by decide, by decide, hstat,
    (C2_skip_quadrant_on_failure exParamsSkip [] [1] 0 zeroState (by decide) (by decide)
      hstat).1⟩

/-- C3: for an amplifier whose kernel call succeeds (status 0), the final
SCI value of every pixel is exactly `corrected·gain + noise` (`ampFin`), and
the ERR value of every pixel is updated from its prior value `err` to
`sqrt(err² + (0.1·|corrected − original|)²)` where `corrected` is the final
written pixel value and `original` the pre-correction one; no other
error-update rule is applied. -/
theorem C3_error_quadrature (P : YCteParams) (l1 l2 : List ℕ) (a : ℕ) (st0 : AmpState)
    (h1 : a ∉ l1) (h2 : a ∉ l2) (hstat : ampStatus P st0 a = 0) :
    ∀ i j, (yCteLoop P (l1 ++ a :: l2) st0).sci a i j = ampFin P st0 a i j ∧
      (yCteLoop P (l1 ++ a :: l2) st0).err a i j =
        Real.sqrt ((st0.err a i j) ^ 2 +
          (0.1 * |ampFin P st0 a i j - st0.sci a i j|) ^ 2) := by
  have hpres := yCteLoop_preserve P a l1 h1 st0
  have hstat1 : ampStatus P (yCteLoop P l1 st0) a = 0 := by
    rw [ampStatus_congr P (yCteLoop P l1 st0) st0 a hpres.1]
    exact hstat
  have hstep_sci : (ampStep P (yCteLoop P l1 st0) a).sci a = ampFin P st0 a := by
    unfold ampStep
    rw [if_neg (not_ne_iff.mpr hstat1)]
    show (if a = a then ampFin P (yCteLoop P l1 st0) a else (yCteLoop P l1 st0).sci a) =
      ampFin P st0 a
    rw [if_pos rfl]
    exact ampFin_congr P (yCteLoop P l1 st0) st0 a hpres.1
  have hstep_err : (ampStep P (yCteLoop P l1 st0) a).err a = fun i j =>
      Real.sqrt ((st0.err a i j) ^ 2 +
        (0.1 * |ampFin P st0 a i j - st0.sci a i j|) ^ 2) := by
    unfold ampStep
    rw [if_neg (not_ne_iff.mpr hstat1)]
    show (if a = a then ampErrFin P (yCteLoop P l1 st0) a else (yCteLoop P l1 st0).err a) = _
    rw [if_pos rfl]
    unfold ampErrFin
    simp only [hpres.1, hpres.2, ampFin_congr P (yCteLoop P l1 st0) st0 a hpres.1]
  have hrun : yCteLoop P (l1 ++ a :: l2) st0 =
      yCteLoop P l2 (ampStep P (yCteLoop P l1 st0) a) := by
    rw [yCteLoop_append, yCteLoop_cons]
  have hl2 := yCteLoop_preserve P a l2 h2 (ampStep P (yCteLoop P l1 st0) a)
  intro i j
  constructor
  · rw [hrun, hl2.1, hstep_sci]
  · rw [hrun, hl2.2, hstep_err]

/-- C3 witness: a single-amplifier run with an always-succeeding kernel; the
theorem is applied at pixel (0,0) of that concrete configuration. -/
theorem C3_error_quadrature_witness :
    ampStatus exParamsOk zeroState 0 = 0 ∧
    (yCteLoop exParamsOk ([] ++ 0 :: []) zeroState).err 0 0 0 =
      Real.sqrt ((zeroState.err 0 0 0) ^ 2 +
        (0.1 * |ampFin exParamsOk zeroState 0 0 0 - zeroState.sci 0 0 0|) ^ 2) := by
  have hstat : ampStatus exParamsOk zeroState 0 = 0 := rfl
  exact ⟨hstat,
    (C3_error_quadrature exParamsOk [] [] 0 zeroState (by decide) (by decide) hstat 0 0).2⟩

end PixCteCorr
